import Mathlib

/-!
Verification of the enjarify Go translation driver (`main.go`).

The driver iterates the classes of one or more DEX inputs, translates each
class with `jvm.ToClassFile`, collects successes in a name-keyed map plus an
ordered key list, collects failures in a second name-keyed map, skips
duplicate names with a warning, writes the successes to a jar in key-list
order, and reports diagnostics and summary counts.

The translation core (`dex.Parse`, `Decode`, `jvm.ToClassFile`) is external
to the driver; it is modelled here by function parameters, so every theorem
quantifies over its behaviour.  Go maps keyed by class name are modelled as
insertion-ordered association lists (the driver only ever inserts fresh keys
and looks keys up, so this is observation-equivalent).  Go `panic` via
`check(e)` is modelled by `Except.error`.
-/

set_option autoImplicit false

namespace Enjarify

/-- Translation options: `jvm.PRETTY` (default) or `jvm.NONE` (`-fast`). -/
inductive Options where
  | PRETTY
  | NONE
deriving DecidableEq, Repr

/-- A class record as produced by `dex.Parse(data).Classes`: the raw DEX
name (`cls.Name`) plus the rest of the class payload, opaque to the driver. -/
structure Cls where
  name : String
  body : String
deriving DecidableEq, Repr

/-- The collector state built by `translate`: the success map `classes`
(insertion-ordered association list), the ordered key list `ordkeys`, the
failure map `errors`, and the duplicate-name warnings printed. -/
structure TransState where
  classes : List (String × String)
  ordkeys : List String
  errors : List (String × String)
  warnings : List String
deriving DecidableEq, Repr

/-- The empty collector state translate starts from. -/
def initState : TransState := ⟨[], [], [], []⟩

/-- The display name under which a class is keyed:
`Decode(cls.Name) + ".class"`. -/
def uname (decode : String → String) (c : Cls) : String :=
  decode c.name ++ ".class"

/-- Membership test of a key in an association list, modelling the Go map
lookup `_, ok := m[k]`. -/
def hasKey (l : List (String × String)) (k : String) : Bool :=
  l.any (fun p => p.1 == k)

/-- One iteration of the inner loop of `translate` (`main.go` lines 50-70):
skip (with a warning) if the display name is already a key of either map,
otherwise record the result of `jvm.ToClassFile` in the success or failure
collection. -/
def processClass (decode : String → String) (tcf : Cls → Except String String)
    (st : TransState) (c : Cls) : TransState :=
  let n := uname decode c
  if hasKey st.classes n || hasKey st.errors n then
    { st with warnings := st.warnings ++ [n] }
  else
    match tcf c with
    | .ok data =>
        { st with classes := st.classes ++ [(n, data)],
                  ordkeys := st.ordkeys ++ [n] }
    | .error e =>
        { st with errors := st.errors ++ [(n, e)] }

/-- Fold of `processClass` over a class list, from a given state. -/
def runClasses (decode : String → String) (tcf : Cls → Except String String)
    (st : TransState) (l : List Cls) : TransState :=
  l.foldl (processClass decode tcf) st

/-- The classes of all DEX inputs in scan order:
`for _, data := range dexs { for _, cls := range dex.Parse(data).Classes }`. -/
def allClasses (parse : String → List Cls) (dexs : List String) : List Cls :=
  (dexs.map parse).flatten

/-- The `translate` function of `main.go` (lines 44-73): fold the per-class
step over every class of every DEX input, starting from the empty state. -/
def translate (parse : String → List Cls) (decode : String → String)
    (tcf : Options → Cls → Except String String) (opts : Options)
    (dexs : List String) : TransState :=
  dexs.foldl (fun st data => runClasses decode (tcf opts) st (parse data)) initState

/-- Go map read with zero-value default: `data := classes[name]` yields `""`
when the key is absent. -/
def lookupD (l : List (String × String)) (k : String) : String :=
  match l.find? (fun p => p.1 == k) with
  | some p => p.2
  | none => ""

/-- The `writeToJar` function (lines 75-89): emit one archive entry per name
of `ordkeys`, in that order, with the bytes stored under it in `classes`. -/
def writeToJar (classes : List (String × String)) (ordkeys : List String) :
    List (String × String) :=
  ordkeys.map (fun k => (k, lookupD classes k))

/-- What `main` produces after a successful `translate` (lines 160-168): the
jar written from the success map in `ordkeys` order, the per-class failure
diagnostics printed, and the success/failure summary counts printed. -/
structure RunReport where
  jar : List (String × String)
  diagnostics : List (String × String)
  okCount : Nat
  errCount : Nat
deriving DecidableEq, Repr

/-- The tail of `main`: run `translate`, write the jar unconditionally, then
report every failure diagnostic and the summary counts. -/
def mainReport (parse : String → List Cls) (decode : String → String)
    (tcf : Options → Cls → Except String String) (opts : Options)
    (dexs : List String) : RunReport :=
  let st := translate parse decode tcf opts dexs
  { jar := writeToJar st.classes st.ordkeys
    diagnostics := st.errors
    okCount := st.classes.length
    errCount := st.errors.length }

/-! Input-side models: `readDexes`, the apk/raw dispatch of `main`, and the
default output-name computation.  Go strings are modelled as `List Char`
where index arithmetic and case mapping matter; `check(err)` (panic) is
modelled by `Except.error`. -/

/-- Go `strings.ToLower`, character by character. -/
def goToLower (s : List Char) : List Char :=
  s.map Char.toLower

/-- The apk test of `main` (line 132):
`strings.HasSuffix(strings.ToLower(inputfile), ".apk")`. -/
def isApkName (inputfile : List Char) : Bool :=
  List.isSuffixOf ".apk".toList (goToLower inputfile)

/-- One member of the opened input archive: its name and the result of
opening and reading it (`f.Open` / `ReadAll`, which can fail). -/
structure ZipEntry where
  name : List Char
  read : Except String String
deriving Repr

/-- The entry filter of `readDexes` (line 96):
`strings.HasPrefix(f.Name, "classes") && strings.HasSuffix(f.Name, ".dex")`,
both case-sensitive. -/
def isDexEntry (f : ZipEntry) : Bool :=
  List.isPrefixOf "classes".toList f.name && List.isSuffixOf ".dex".toList f.name

/-- The entry loop of `readDexes` (lines 95-104): scan entries in archive
order, read each matching one (a failed read panics via `check`), append its
bytes to the result. -/
def readDexesLoop : List ZipEntry → List String → Except String (List String)
  | [], acc => .ok acc
  | f :: rest, acc =>
    if isDexEntry f then
      match f.read with
      | .error e => .error e
      | .ok d => readDexesLoop rest (acc ++ [d])
    else readDexesLoop rest acc

/-- The `readDexes` function (lines 91-107): a failed `zip.OpenReader`
panics via `check`, otherwise the matching entries are read in order. -/
def readDexes (openResult : Except String (List ZipEntry)) :
    Except String (List String) :=
  match openResult with
  | .error e => .error e
  | .ok files => readDexesLoop files []

/-- The DEX-input selection of `main` (lines 131-136): an `.apk` input (the
suffix test lowercases the filename first) goes through `readDexes`; any
other input file is read whole as a single DEX.  `fileIn` is the result of
`Read(inputfile)`, whose failure also panics via `check`. -/
def getDexs (inputfile : List Char) (zipIn : Except String (List ZipEntry))
    (fileIn : Except String String) : Except String (List String) :=
  if isApkName inputfile then readDexes zipIn
  else
    match fileIn with
    | .error e => .error e
    | .ok d => .ok [d]

/-- Outcome of a run of `main`: a top-level panic (no archive produced), or
a completed run with its report. -/
inductive MainOutcome where
  | fatal (e : String)
  | done (r : RunReport)
deriving Repr

/-- The input-to-report path of `main`: gather the DEX inputs (a panic while
gathering aborts the job before anything is translated or written), then
translate and report. -/
def mainModel (parse : String → List Cls) (decode : String → String)
    (tcf : Options → Cls → Except String String) (opts : Options)
    (inputfile : List Char) (zipIn : Except String (List ZipEntry))
    (fileIn : Except String String) : MainOutcome :=
  match getDexs inputfile zipIn fileIn with
  | .error e => .fatal e
  | .ok dexs => .done (mainReport parse decode tcf opts dexs)

/-- Go `strings.LastIndex(s, string(c))` for a one-character needle: the
index of the last occurrence of `c`, or `-1` if absent. -/
def lastIndexOf : List Char → Char → Int
  | [], _ => -1
  | a :: t, c =>
    let r := lastIndexOf t c
    if r ≥ 0 then r + 1
    else if a = c then 0 else -1

/-- Go string slicing `s[:j]` with an `int` bound: panics (modelled as
`none`) when `j` is negative or exceeds the length. -/
def goSliceTo (s : List Char) (j : Int) : Option (List Char) :=
  if 0 ≤ j ∧ j ≤ s.length then some (s.take j.toNat) else none

/-- The basename step of the default output name (line 140):
`inputfile[strings.LastIndex(inputfile, "/")+1:]`.  The lower bound is
always in range since `LastIndex` returns at least `-1`. -/
def goBasename (inputfile : List Char) : List Char :=
  inputfile.drop ((lastIndexOf inputfile '/') + 1).toNat

/-- The default output name of `main` (lines 139-142, when no `-o` is
given): strip everything up to the last `/`, truncate at the last `.` of
the remainder, append `-enjarify.jar`.  `none` models the Go panic of a
negative slice bound. -/
def defaultOutName (inputfile : List Char) : Option (List Char) :=
  let s := goBasename inputfile
  match goSliceTo s (lastIndexOf s '.') with
  | none => none
  | some s2 => some (s2 ++ "-enjarify.jar".toList)

/-! Characterizations used in theorem statements, and concrete fixtures used
by witnesses. -/

/-- The per-class outcomes that succeed, keyed by display name, in scan
order. -/
def successes (decode : String → String) (tcf : Cls → Except String String)
    (l : List Cls) : List (String × String) :=
  l.filterMap (fun c =>
    match tcf c with
    | .ok d => some (uname decode c, d)
    | .error _ => none)

/-- The per-class outcomes that fail, keyed by display name, in scan
order. -/
def failures (decode : String → String) (tcf : Cls → Except String String)
    (l : List Cls) : List (String × String) :=
  l.filterMap (fun c =>
    match tcf c with
    | .ok _ => none
    | .error e => some (uname decode c, e))

/-- The collector invariant of `translate`: `ordkeys` is exactly the key
list of the success map in insertion order, keys are unique in each map,
and no key is in both maps. -/
def Inv (st : TransState) : Prop :=
  st.ordkeys = st.classes.map Prod.fst ∧
  (st.classes.map Prod.fst).Nodup ∧
  (st.errors.map Prod.fst).Nodup ∧
  ∀ k, k ∈ st.classes.map Prod.fst → k ∉ st.errors.map Prod.fst

/-- The bytes of a successfully read archive entry, if the read succeeds. -/
def okData (r : Except String String) : Option String :=
  match r with
  | .ok d => some d
  | .error _ => none

/-- The contents of the matching entries of an archive, in archive order. -/
def dexEntryData (files : List ZipEntry) : List String :=
  files.filterMap (fun f => if isDexEntry f then okData f.read else none)

/-- Concrete parser fixture: one DEX named "dex1" holding three classes. -/
def parseW : String → List Cls := fun d =>
  if d == "dex1" then [⟨"A", "da"⟩, ⟨"B", "db"⟩, ⟨"C", "dc"⟩] else []

/-- Concrete translator fixture: the class named "B" fails, all others
succeed with their body as class-file bytes. -/
def tcfW : Options → Cls → Except String String := fun _ c =>
  if c.name == "B" then .error "boom" else .ok c.body

/-- Concrete parser fixture with a duplicate display name: the third class
decodes to the same name as the first. -/
def parseDup : String → List Cls := fun d =>
  if d == "dex1" then [⟨"A", "da"⟩, ⟨"B", "bad"⟩, ⟨"A", "dup"⟩] else []

/-- Concrete archive fixture: two matching DEX entries, one non-matching
resource, and one entry excluded by the case-sensitive suffix test. -/
def filesW : List ZipEntry :=
  [⟨"classes.dex".toList, .ok "D1"⟩,
   ⟨"AndroidManifest.xml".toList, .ok "X"⟩,
   ⟨"classes2.dex".toList, .ok "D2"⟩,
   ⟨"classes3.DEX".toList, .ok "D3"⟩]

/-! Basic lemmas about the collector. -/

theorem hasKey_iff (l : List (String × String)) (k : String) :
    hasKey l k = true ↔ k ∈ l.map Prod.fst := by
  simp [hasKey, List.any_eq_true, List.mem_map, beq_iff_eq]

theorem hasKey_eq_false_iff (l : List (String × String)) (k : String) :
    hasKey l k = false ↔ k ∉ l.map Prod.fst := by
  rw [← hasKey_iff, Bool.eq_false_iff]

theorem hasKey_append (l₁ l₂ : List (String × String)) (k : String) :
    hasKey (l₁ ++ l₂) k = (hasKey l₁ k || hasKey l₂ k) := by
  simp [hasKey, List.any_append]

theorem processClass_dup (decode : String → String)
    (tcf : Cls → Except String String) (st : TransState) (c : Cls)
    (h : hasKey st.classes (uname decode c) = true ∨
         hasKey st.errors (uname decode c) = true) :
    processClass decode tcf st c =
      { st with warnings := st.warnings ++ [uname decode c] } := by
  unfold processClass
  rcases h with h | h <;> simp [h]

theorem processClass_ok (decode : String → String)
    (tcf : Cls → Except String String) (st : TransState) (c : Cls) (d : String)
    (h1 : hasKey st.classes (uname decode c) = false)
    (h2 : hasKey st.errors (uname decode c) = false)
    (h3 : tcf c = .ok d) :
    processClass decode tcf st c =
      { st with classes := st.classes ++ [(uname decode c, d)],
                ordkeys := st.ordkeys ++ [uname decode c] } := by
  unfold processClass
  simp [h1, h2, h3]

theorem processClass_err (decode : String → String)
    (tcf : Cls → Except String String) (st : TransState) (c : Cls) (e : String)
    (h1 : hasKey st.classes (uname decode c) = false)
    (h2 : hasKey st.errors (uname decode c) = false)
    (h3 : tcf c = .error e) :
    processClass decode tcf st c =
      { st with errors := st.errors ++ [(uname decode c, e)] } := by
  unfold processClass
  simp [h1, h2, h3]

theorem runClasses_append (decode : String → String)
    (tcf : Cls → Except String String) (st : TransState) (l₁ l₂ : List Cls) :
    runClasses decode tcf st (l₁ ++ l₂) =
      runClasses decode tcf (runClasses decode tcf st l₁) l₂ := by
  simp [runClasses, List.foldl_append]

theorem translate_eq_runClasses (parse : String → List Cls)
    (decode : String → String) (tcf : Options → Cls → Except String String)
    (opts : Options) (dexs : List String) :
    translate parse decode tcf opts dexs =
      runClasses decode (tcf opts) initState (allClasses parse dexs) := by
  suffices h : ∀ (dexs : List String) (st : TransState),
      dexs.foldl (fun st data => runClasses decode (tcf opts) st (parse data)) st =
        runClasses decode (tcf opts) st (allClasses parse dexs) by
    exact h dexs initState
  intro dexs
  induction dexs with
  | nil => intro st; rfl
  | cons x xs ih =>
    intro st
    simp only [List.foldl_cons]
    rw [ih]
    simp only [allClasses, List.map_cons, List.flatten_cons]
    rw [runClasses_append]

/-! Characterization of a run over classes with fresh, pairwise-distinct
display names. -/

theorem successes_cons_ok (decode : String → String)
    (tcf : Cls → Except String String) (c : Cls) (t : List Cls) (d : String)
    (h : tcf c = .ok d) :
    successes decode tcf (c :: t) =
      (uname decode c, d) :: successes decode tcf t := by
  simp [successes, List.filterMap_cons, h]

theorem successes_cons_err (decode : String → String)
    (tcf : Cls → Except String String) (c : Cls) (t : List Cls) (e : String)
    (h : tcf c = .error e) :
    successes decode tcf (c :: t) = successes decode tcf t := by
  simp [successes, List.filterMap_cons, h]

theorem failures_cons_ok (decode : String → String)
    (tcf : Cls → Except String String) (c : Cls) (t : List Cls) (d : String)
    (h : tcf c = .ok d) :
    failures decode tcf (c :: t) = failures decode tcf t := by
  simp [failures, List.filterMap_cons, h]

theorem failures_cons_err (decode : String → String)
    (tcf : Cls → Except String String) (c : Cls) (t : List Cls) (e : String)
    (h : tcf c = .error e) :
    failures decode tcf (c :: t) =
      (uname decode c, e) :: failures decode tcf t := by
  simp [failures, List.filterMap_cons, h]

theorem successes_failures_length (decode : String → String)
    (tcf : Cls → Except String String) (l : List Cls) :
    (successes decode tcf l).length + (failures decode tcf l).length = l.length := by
  induction l with
  | nil => rfl
  | cons c t ih =>
    cases h : tcf c with
    | ok d =>
      rw [successes_cons_ok decode tcf c t d h, failures_cons_ok decode tcf c t d h]
      simp only [List.length_cons]
      omega
    | error e =>
      rw [successes_cons_err decode tcf c t e h, failures_cons_err decode tcf c t e h]
      simp only [List.length_cons]
      omega

theorem runClasses_fresh (decode : String → String)
    (tcf : Cls → Except String String) (l : List Cls) (st : TransState)
    (hnd : (l.map (uname decode)).Nodup)
    (hfresh : ∀ c ∈ l, hasKey st.classes (uname decode c) = false ∧
                       hasKey st.errors (uname decode c) = false) :
    runClasses decode tcf st l =
      { st with classes := st.classes ++ successes decode tcf l,
                ordkeys := st.ordkeys ++ (successes decode tcf l).map Prod.fst,
                errors := st.errors ++ failures decode tcf l } := by
  induction l generalizing st with
  | nil =>
    simp [runClasses, successes, failures]
  | cons c t ih =>
    obtain ⟨hc1, hc2⟩ := hfresh c (List.mem_cons_self c t)
    have hnd' : (t.map (uname decode)).Nodup := (List.nodup_cons.mp (by simpa using hnd)).2
    have hhead : uname decode c ∉ t.map (uname decode) :=
      (List.nodup_cons.mp (by simpa using hnd)).1
    have hstep : runClasses decode tcf st (c :: t) =
        runClasses decode tcf (processClass decode tcf st c) t := rfl
    cases h : tcf c with
    | ok d =>
      rw [hstep, processClass_ok decode tcf st c d hc1 hc2 h]
      rw [ih _ hnd' ?_]
      · rw [successes_cons_ok decode tcf c t d h, failures_cons_ok decode tcf c t d h]
        simp [List.append_assoc]
      · intro c' hc'
        have hne : uname decode c' ≠ uname decode c := by
          intro heq
          exact hhead (heq ▸ List.mem_map_of_mem (uname decode) hc')
        obtain ⟨h1', h2'⟩ := hfresh c' (List.mem_cons_of_mem c hc')
        constructor
        · rw [hasKey_append, h1', Bool.false_or]
          simp [hasKey, Ne.symm hne]
        · exact h2'
    | error e =>
      rw [hstep, processClass_err decode tcf st c e hc1 hc2 h]
      rw [ih _ hnd' ?_]
      · rw [successes_cons_err decode tcf c t e h, failures_cons_err decode tcf c t e h]
        simp [List.append_assoc]
      · intro c' hc'
        have hne : uname decode c' ≠ uname decode c := by
          intro heq
          exact hhead (heq ▸ List.mem_map_of_mem (uname decode) hc')
        obtain ⟨h1', h2'⟩ := hfresh c' (List.mem_cons_of_mem c hc')
        constructor
        · exact h1'
        · rw [hasKey_append, h2', Bool.false_or]
          simp [hasKey, Ne.symm hne]

/-! Invariant preservation and append-only growth of the collector. -/

theorem Inv_initState : Inv initState :=
  ⟨rfl, List.nodup_nil, List.nodup_nil, fun _ hk => absurd hk (List.not_mem_nil _)⟩

theorem Inv_processClass (decode : String → String)
    (tcf : Cls → Except String String) (st : TransState) (c : Cls)
    (h : Inv st) : Inv (processClass decode tcf st c) := by
  obtain ⟨hord, hnc, hne, hdisj⟩ := h
  by_cases hdup : (hasKey st.classes (uname decode c) ||
      hasKey st.errors (uname decode c)) = true
  · rw [processClass_dup decode tcf st c (Bool.or_eq_true_iff.mp hdup)]
    exact ⟨hord, hnc, hne, hdisj⟩
  · obtain ⟨h1, h2⟩ := Bool.or_eq_false_iff.mp (Bool.eq_false_iff.mpr hdup)
    have hn1 : uname decode c ∉ st.classes.map Prod.fst :=
      (hasKey_eq_false_iff _ _).mp h1
    have hn2 : uname decode c ∉ st.errors.map Prod.fst :=
      (hasKey_eq_false_iff _ _).mp h2
    cases htcf : tcf c with
    | ok d =>
      rw [processClass_ok decode tcf st c d h1 h2 htcf]
      refine ⟨?_, ?_, hne, ?_⟩
      · simp [List.map_append, hord]
      · simp only [List.map_append, List.map_cons, List.map_nil]
        rw [List.nodup_append]
        exact ⟨hnc, List.nodup_singleton _, by simpa [List.disjoint_singleton] using hn1⟩
      · intro k hk
        simp only [List.map_append, List.map_cons, List.map_nil,
          List.mem_append, List.mem_singleton] at hk
        rcases hk with hk | rfl
        · exact hdisj k hk
        · exact hn2
    | error e =>
      rw [processClass_err decode tcf st c e h1 h2 htcf]
      refine ⟨hord, hnc, ?_, ?_⟩
      · simp only [List.map_append, List.map_cons, List.map_nil]
        rw [List.nodup_append]
        exact ⟨hne, List.nodup_singleton _, by simpa [List.disjoint_singleton] using hn2⟩
      · intro k hk
        simp only [List.map_append, List.map_cons, List.map_nil,
          List.mem_append, List.mem_singleton]
        rw [not_or]
        refine ⟨hdisj k hk, ?_⟩
        intro rfl_eq
        exact hn1 (rfl_eq ▸ hk)

theorem Inv_runClasses (decode : String → String)
    (tcf : Cls → Except String String) (st : TransState) (l : List Cls)
    (h : Inv st) : Inv (runClasses decode tcf st l) := by
  induction l generalizing st with
  | nil => exact h
  | cons c t ih => exact ih _ (Inv_processClass decode tcf st c h)

theorem processClass_extends (decode : String → String)
    (tcf : Cls → Except String String) (st : TransState) (c : Cls) :
    ∃ a b e, (processClass decode tcf st c).classes = st.classes ++ a ∧
             (processClass decode tcf st c).ordkeys = st.ordkeys ++ b ∧
             (processClass decode tcf st c).errors = st.errors ++ e := by
  by_cases hdup : (hasKey st.classes (uname decode c) ||
      hasKey st.errors (uname decode c)) = true
  · rw [processClass_dup decode tcf st c (Bool.or_eq_true_iff.mp hdup)]
    exact ⟨[], [], [], by simp, by simp, by simp⟩
  · obtain ⟨h1, h2⟩ := Bool.or_eq_false_iff.mp (Bool.eq_false_iff.mpr hdup)
    cases htcf : tcf c with
    | ok d =>
      rw [processClass_ok decode tcf st c d h1 h2 htcf]
      exact ⟨[(uname decode c, d)], [uname decode c], [], rfl, rfl, by simp⟩
    | error e =>
      rw [processClass_err decode tcf st c e h1 h2 htcf]
      exact ⟨[], [], [(uname decode c, e)], by simp, by simp, rfl⟩

theorem runClasses_extends (decode : String → String)
    (tcf : Cls → Except String String) (st : TransState) (l : List Cls) :
    ∃ a b e, (runClasses decode tcf st l).classes = st.classes ++ a ∧
             (runClasses decode tcf st l).ordkeys = st.ordkeys ++ b ∧
             (runClasses decode tcf st l).errors = st.errors ++ e := by
  induction l generalizing st with
  | nil => exact ⟨[], [], [], by simp [runClasses]⟩
  | cons c t ih =>
    obtain ⟨a₁, b₁, e₁, hc₁, ho₁, he₁⟩ := processClass_extends decode tcf st c
    obtain ⟨a₂, b₂, e₂, hc₂, ho₂, he₂⟩ := ih (processClass decode tcf st c)
    refine ⟨a₁ ++ a₂, b₁ ++ b₂, e₁ ++ e₂, ?_, ?_, ?_⟩
    · rw [show runClasses decode tcf st (c :: t) =
        runClasses decode tcf (processClass decode tcf st c) t from rfl,
        hc₂, hc₁, List.append_assoc]
    · rw [show runClasses decode tcf st (c :: t) =
        runClasses decode tcf (processClass decode tcf st c) t from rfl,
        ho₂, ho₁, List.append_assoc]
    · rw [show runClasses decode tcf st (c :: t) =
        runClasses decode tcf (processClass decode tcf st c) t from rfl,
        he₂, he₁, List.append_assoc]

/-! Support lemmas for the individual claims. -/

theorem nodup_map_inj {α β : Type} {f : α → β} {l : List α}
    (h : (l.map f).Nodup) {a b : α} (ha : a ∈ l) (hb : b ∈ l)
    (hf : f a = f b) : a = b := by
  induction l with
  | nil => cases ha
  | cons x t ih =>
    rw [List.map_cons, List.nodup_cons] at h
    rcases List.mem_cons.mp ha with rfl | ha'
    · rcases List.mem_cons.mp hb with rfl | hb'
      · rfl
      · exact absurd (by rw [hf]; exact List.mem_map_of_mem f hb') h.1
    · rcases List.mem_cons.mp hb with rfl | hb'
      · exact absurd (by rw [← hf]; exact List.mem_map_of_mem f ha') h.1
      · exact ih h.2 ha' hb'

theorem failures_eq_nil (decode : String → String)
    (tcf : Cls → Except String String) (l : List Cls)
    (h : ∀ c ∈ l, ∃ d, tcf c = .ok d) :
    failures decode tcf l = [] := by
  induction l with
  | nil => rfl
  | cons c t ih =>
    obtain ⟨d, hd⟩ := h c (List.mem_cons_self c t)
    rw [failures_cons_ok decode tcf c t d hd]
    exact ih (fun c' hc' => h c' (List.mem_cons_of_mem c hc'))

theorem failures_single (decode : String → String)
    (tcf : Cls → Except String String) (L : List Cls) (c₀ : Cls) (e : String)
    (hnd : (L.map (uname decode)).Nodup) (hmem : c₀ ∈ L)
    (hfail : tcf c₀ = .error e)
    (hok : ∀ c ∈ L, uname decode c ≠ uname decode c₀ → ∃ d, tcf c = .ok d) :
    failures decode tcf L = [(uname decode c₀, e)] := by
  induction L with
  | nil => cases hmem
  | cons x t ih =>
    rw [List.map_cons, List.nodup_cons] at hnd
    rcases List.mem_cons.mp hmem with rfl | hmem'
    · rw [failures_cons_err decode tcf c₀ t e hfail]
      rw [failures_eq_nil decode tcf t ?_]
      intro c' hc'
      apply hok c' (List.mem_cons_of_mem _ hc')
      intro heq
      exact hnd.1 (by rw [← heq]; exact List.mem_map_of_mem (uname decode) hc')
    · have hxne : uname decode x ≠ uname decode c₀ := by
        intro heq
        exact hnd.1 (by rw [heq]; exact List.mem_map_of_mem (uname decode) hmem')
      obtain ⟨d, hd⟩ := hok x (List.mem_cons_self x t) hxne
      rw [failures_cons_ok decode tcf x t d hd]
      exact ih hnd.2 hmem' (fun c' hc' => hok c' (List.mem_cons_of_mem x hc'))

theorem mem_successes (decode : String → String)
    (tcf : Cls → Except String String) {l : List Cls} {c : Cls} {d : String}
    (hc : c ∈ l) (hd : tcf c = .ok d) :
    (uname decode c, d) ∈ successes decode tcf l := by
  apply List.mem_filterMap.mpr
  exact ⟨c, hc, by rw [hd]⟩

theorem lookupD_cons_ne (p : String × String) (t : List (String × String))
    (k : String) (h : p.1 ≠ k) : lookupD (p :: t) k = lookupD t k := by
  simp [lookupD, List.find?_cons, h]

theorem lookupD_cons_self (p : String × String) (t : List (String × String)) :
    lookupD (p :: t) p.1 = p.2 := by
  simp [lookupD, List.find?_cons]

theorem lookupD_mem (l : List (String × String)) (k v : String)
    (hnd : (l.map Prod.fst).Nodup) (h : (k, v) ∈ l) : lookupD l k = v := by
  induction l with
  | nil => cases h
  | cons p t ih =>
    rw [List.map_cons, List.nodup_cons] at hnd
    rcases List.mem_cons.mp h with rfl | h'
    · exact lookupD_cons_self (k, v) t
    · have hne : p.1 ≠ k := by
        intro heq
        apply hnd.1
        rw [heq]
        exact List.mem_map_of_mem Prod.fst h'
      rw [lookupD_cons_ne p t k hne]
      exact ih hnd.2 h'

theorem writeToJar_eq_classes (l : List (String × String))
    (hnd : (l.map Prod.fst).Nodup) :
    writeToJar l (l.map Prod.fst) = l := by
  unfold writeToJar
  rw [List.map_map]
  have h : ∀ p ∈ l, ((fun k => (k, lookupD l k)) ∘ Prod.fst) p = p := by
    intro p hp
    simp only [Function.comp_apply]
    rw [lookupD_mem l p.1 p.2 hnd hp]
  rw [List.map_congr_left h]
  simp

theorem lastIndexOf_of_not_mem (s : List Char) (c : Char) (h : c ∉ s) :
    lastIndexOf s c = -1 := by
  induction s with
  | nil => rfl
  | cons a t ih =>
    rw [List.mem_cons, not_or] at h
    simp [lastIndexOf, ih h.2, Ne.symm h.1]

theorem readDexesLoop_cons_ok (f : ZipEntry) (rest : List ZipEntry)
    (acc : List String) (d : String)
    (hd : isDexEntry f = true) (hread : f.read = .ok d) :
    readDexesLoop (f :: rest) acc = readDexesLoop rest (acc ++ [d]) := by
  simp [readDexesLoop, hd, hread]

theorem readDexesLoop_cons_err (f : ZipEntry) (rest : List ZipEntry)
    (acc : List String) (e : String)
    (hd : isDexEntry f = true) (hread : f.read = .error e) :
    readDexesLoop (f :: rest) acc = .error e := by
  simp [readDexesLoop, hd, hread]

theorem readDexesLoop_cons_skip (f : ZipEntry) (rest : List ZipEntry)
    (acc : List String) (hd : isDexEntry f = false) :
    readDexesLoop (f :: rest) acc = readDexesLoop rest acc := by
  simp [readDexesLoop, hd]

theorem readDexesLoop_all_ok (files : List ZipEntry) (acc : List String)
    (h : ∀ f ∈ files, isDexEntry f = true → ∃ d, f.read = .ok d) :
    readDexesLoop files acc = .ok (acc ++ dexEntryData files) := by
  induction files generalizing acc with
  | nil => simp [readDexesLoop, dexEntryData]
  | cons f rest ih =>
    by_cases hd : isDexEntry f = true
    · obtain ⟨d, hread⟩ := h f (List.mem_cons_self f rest) hd
      rw [readDexesLoop_cons_ok f rest acc d hd hread]
      rw [ih (acc ++ [d]) (fun f' hf' => h f' (List.mem_cons_of_mem f hf'))]
      simp [dexEntryData, List.filterMap_cons, hd, hread, okData, List.append_assoc]
    · rw [readDexesLoop_cons_skip f rest acc (Bool.eq_false_iff.mpr hd)]
      rw [ih acc (fun f' hf' => h f' (List.mem_cons_of_mem f hf'))]
      simp [dexEntryData, List.filterMap_cons, Bool.eq_false_iff.mpr hd]

theorem readDexesLoop_error (files : List ZipEntry) (acc : List String)
    (h : ∃ f ∈ files, isDexEntry f = true ∧ ∃ e, f.read = .error e) :
    ∃ e, readDexesLoop files acc = .error e := by
  induction files generalizing acc with
  | nil => simp at h
  | cons f rest ih =>
    obtain ⟨g, hg, hgdex, e, herr⟩ := h
    rcases List.mem_cons.mp hg with rfl | hgrest
    · exact ⟨e, readDexesLoop_cons_err g rest acc e hgdex herr⟩
    · by_cases hd : isDexEntry f = true
      · cases hread : f.read with
        | error e' =>
          exact ⟨e', readDexesLoop_cons_err f rest acc e' hd hread⟩
        | ok d =>
          obtain ⟨e', he'⟩ := ih (acc ++ [d]) ⟨g, hgrest, hgdex, e, herr⟩
          exact ⟨e', by rw [readDexesLoop_cons_ok f rest acc d hd hread, he']⟩
      · obtain ⟨e', he'⟩ := ih acc ⟨g, hgrest, hgdex, e, herr⟩
        exact ⟨e', by
          rw [readDexesLoop_cons_skip f rest acc (Bool.eq_false_iff.mpr hd), he']⟩

theorem runClasses_classes_from (decode : String → String)
    (tcf : Cls → Except String String) (l : List Cls) (st : TransState)
    (p : String × String) (hp : p ∈ (runClasses decode tcf st l).classes) :
    p ∈ st.classes ∨ ∃ c ∈ l, p.1 = uname decode c ∧ tcf c = .ok p.2 := by
  induction l generalizing st with
  | nil => exact Or.inl hp
  | cons c t ih =>
    have hp' : p ∈ (runClasses decode tcf (processClass decode tcf st c) t).classes := hp
    rcases ih (processClass decode tcf st c) hp' with h | ⟨c', hc', h1, h2⟩
    · by_cases hdup : (hasKey st.classes (uname decode c) ||
          hasKey st.errors (uname decode c)) = true
      · rw [processClass_dup decode tcf st c (Bool.or_eq_true_iff.mp hdup)] at h
        exact Or.inl h
      · obtain ⟨hk1, hk2⟩ := Bool.or_eq_false_iff.mp (Bool.eq_false_iff.mpr hdup)
        cases htcf : tcf c with
        | ok d =>
          rw [processClass_ok decode tcf st c d hk1 hk2 htcf] at h
          rcases List.mem_append.mp h with h | h
          · exact Or.inl h
          · rw [List.mem_singleton] at h
            subst h
            exact Or.inr ⟨c, List.mem_cons_self c t, rfl, htcf⟩
        | error e =>
          rw [processClass_err decode tcf st c e hk1 hk2 htcf] at h
          exact Or.inl h
    · exact Or.inr ⟨c', List.mem_cons_of_mem c hc', h1, h2⟩

/-! The claim theorems. -/

/-- C1: failure isolation at class granularity.  For input classes with
pairwise-distinct decoded names where exactly one class fails translation,
`translate` returns an error map holding exactly that class's diagnostic, a
success map holding an entry for every other class (N−1 successes), and
successes and failures together account for every input class; the run never
aborts. -/
theorem failure_isolation (parse : String → List Cls) (decode : String → String)
    (tcf : Options → Cls → Except String String) (opts : Options)
    (dexs : List String) (c₀ : Cls) (e : String)
    (hnd : ((allClasses parse dexs).map (uname decode)).Nodup)
    (hmem : c₀ ∈ allClasses parse dexs)
    (hfail : tcf opts c₀ = .error e)
    (hok : ∀ c ∈ allClasses parse dexs,
      uname decode c ≠ uname decode c₀ → ∃ d, tcf opts c = .ok d) :
    (translate parse decode tcf opts dexs).errors = [(uname decode c₀, e)] ∧
    (∀ c ∈ allClasses parse dexs, uname decode c ≠ uname decode c₀ →
      ∃ d, (uname decode c, d) ∈ (translate parse decode tcf opts dexs).classes) ∧
    (translate parse decode tcf opts dexs).classes.length + 1 =
      (allClasses parse dexs).length ∧
    (translate parse decode tcf opts dexs).classes.length +
        (translate parse decode tcf opts dexs).errors.length =
      (allClasses parse dexs).length := by
  have hchar : translate parse decode tcf opts dexs =
      { classes := successes decode (tcf opts) (allClasses parse dexs),
        ordkeys := (successes decode (tcf opts) (allClasses parse dexs)).map Prod.fst,
        errors := failures decode (tcf opts) (allClasses parse dexs),
        warnings := [] } := by
    rw [translate_eq_runClasses]
    rw [runClasses_fresh decode (tcf opts) _ initState hnd (fun c _ => ⟨rfl, rfl⟩)]
    simp [initState]
  have hsingle := failures_single decode (tcf opts) (allClasses parse dexs)
    c₀ e hnd hmem hfail hok
  have hlen := successes_failures_length decode (tcf opts) (allClasses parse dexs)
  refine ⟨?_, ?_, ?_, ?_⟩
  · rw [hchar]
    exact hsingle
  · intro c hc hne
    obtain ⟨d, hd⟩ := hok c hc hne
    refine ⟨d, ?_⟩
    rw [hchar]
    exact mem_successes decode (tcf opts) hc hd
  · rw [hchar]
    simp only []
    rw [hsingle] at hlen
    simpa using hlen
  · rw [hchar]
    simp only []
    exact hlen

/-- Witness for C1 at a concrete three-class input where exactly the class
named "B" fails. -/
theorem failure_isolation_witness :
    (translate parseW id tcfW .PRETTY ["dex1"]).errors = [("B.class", "boom")] ∧
    (translate parseW id tcfW .PRETTY ["dex1"]).classes.length + 1 =
      (allClasses parseW ["dex1"]).length := by
  have hok : ∀ c ∈ allClasses parseW ["dex1"],
      uname id c ≠ uname id (⟨"B", "db"⟩ : Cls) → ∃ d, tcfW .PRETTY c = .ok d := by
    intro c hc hne
    simp [allClasses, parseW] at hc
    rcases hc with rfl | rfl | rfl
    · exact ⟨"da", rfl⟩
    · exact absurd rfl hne
    · exact ⟨"dc", rfl⟩
  have h := failure_isolation parseW id tcfW .PRETTY ["dex1"] ⟨"B", "db"⟩ "boom"
    (by decide) (by decide) rfl hok
  exact ⟨h.1, h.2.2.1⟩

/-- C3: duplicate-name handling.  When the decoded display name of a class
is already a key of the success map or of the error map built from the
earlier classes, the whole run equals the run that continues from the
earlier state with only a warning appended: the later class is skipped, the
earlier entries are left unchanged, and processing continues with the
subsequent classes. -/
theorem duplicate_skip (parse : String → List Cls) (decode : String → String)
    (tcf : Options → Cls → Except String String) (opts : Options)
    (dexs : List String) (l₁ l₂ : List Cls) (c : Cls)
    (hsplit : allClasses parse dexs = l₁ ++ c :: l₂)
    (hdup : uname decode c ∈
        (runClasses decode (tcf opts) initState l₁).classes.map Prod.fst ∨
      uname decode c ∈
        (runClasses decode (tcf opts) initState l₁).errors.map Prod.fst) :
    translate parse decode tcf opts dexs =
      runClasses decode (tcf opts)
        { runClasses decode (tcf opts) initState l₁ with
          warnings := (runClasses decode (tcf opts) initState l₁).warnings ++
            [uname decode c] } l₂ := by
  rw [translate_eq_runClasses, hsplit, runClasses_append]
  have hstep : runClasses decode (tcf opts)
        (runClasses decode (tcf opts) initState l₁) (c :: l₂) =
      runClasses decode (tcf opts)
        (processClass decode (tcf opts)
          (runClasses decode (tcf opts) initState l₁) c) l₂ := rfl
  rw [hstep, processClass_dup decode (tcf opts) _ c ?_]
  rcases hdup with h | h
  · exact Or.inl ((hasKey_iff _ _).mpr h)
  · exact Or.inr ((hasKey_iff _ _).mpr h)

/-- Witness for C3: the third class of `parseDup` repeats the display name
of the first (which succeeded); it is dropped with a warning and the run is
the run without it. -/
theorem duplicate_skip_witness :
    translate parseDup id tcfW .PRETTY ["dex1"] =
      runClasses id (tcfW .PRETTY)
        { runClasses id (tcfW .PRETTY) initState [⟨"A", "da"⟩, ⟨"B", "bad"⟩] with
          warnings := (runClasses id (tcfW .PRETTY) initState
              [⟨"A", "da"⟩, ⟨"B", "bad"⟩]).warnings ++
            [uname id ⟨"A", "dup"⟩] } [] :=
  duplicate_skip parseDup id tcfW .PRETTY ["dex1"]
    [⟨"A", "da"⟩, ⟨"B", "bad"⟩] [] ⟨"A", "dup"⟩ (by decide) (Or.inl (by decide))

/-- C4: first-seen order preservation.  The ordered name list of
`translate` is exactly the key sequence of the success map in the order the
successes were recorded, each name exactly once; `writeToJar` over that list
emits exactly the success map's entries in that order; and every archive
entry stems from an input class whose translation succeeded with those
bytes. -/
theorem order_preservation (parse : String → List Cls) (decode : String → String)
    (tcf : Options → Cls → Except String String) (opts : Options)
    (dexs : List String) :
    writeToJar (translate parse decode tcf opts dexs).classes
        (translate parse decode tcf opts dexs).ordkeys =
      (translate parse decode tcf opts dexs).classes ∧
    (translate parse decode tcf opts dexs).ordkeys =
      (translate parse decode tcf opts dexs).classes.map Prod.fst ∧
    (translate parse decode tcf opts dexs).ordkeys.Nodup ∧
    ∀ p ∈ (translate parse decode tcf opts dexs).classes,
      ∃ c ∈ allClasses parse dexs, p.1 = uname decode c ∧ tcf opts c = .ok p.2 := by
  have hInvT : Inv (translate parse decode tcf opts dexs) := by
    rw [translate_eq_runClasses]
    exact Inv_runClasses decode (tcf opts) initState _ Inv_initState
  obtain ⟨hord, hnodup, _, _⟩ := hInvT
  refine ⟨?_, hord, ?_, ?_⟩
  · rw [hord]
    exact writeToJar_eq_classes _ hnodup
  · rw [hord]
    exact hnodup
  · intro p hp
    have hp' : p ∈ (runClasses decode (tcf opts) initState
        (allClasses parse dexs)).classes := by
      rw [← translate_eq_runClasses]
      exact hp
    rcases runClasses_classes_from decode (tcf opts) _ initState p hp' with h | h
    · cases h
    · exact h

/-- Witness for C4 at a concrete run: the jar equals the success map and the
key list is the two successes in scan order. -/
theorem order_preservation_witness :
    writeToJar (translate parseW id tcfW .PRETTY ["dex1"]).classes
        (translate parseW id tcfW .PRETTY ["dex1"]).ordkeys =
      (translate parseW id tcfW .PRETTY ["dex1"]).classes ∧
    (translate parseW id tcfW .PRETTY ["dex1"]).ordkeys =
      ["A.class", "C.class"] := by
  have h := order_preservation parseW id tcfW .PRETTY ["dex1"]
  exact ⟨h.1, by decide⟩

/-- C6: determinism of translation.  `translate` is a function of the DEX
input list and the options value alone: two calls at equal inputs yield
equal success maps, equal ordered name lists and equal error maps. -/
theorem translate_deterministic (parse : String → List Cls)
    (decode : String → String) (tcf : Options → Cls → Except String String)
    (o₁ o₂ : Options) (dexs₁ dexs₂ : List String)
    (ho : o₁ = o₂) (hd : dexs₁ = dexs₂) :
    (translate parse decode tcf o₁ dexs₁).classes =
      (translate parse decode tcf o₂ dexs₂).classes ∧
    (translate parse decode tcf o₁ dexs₁).ordkeys =
      (translate parse decode tcf o₂ dexs₂).ordkeys ∧
    (translate parse decode tcf o₁ dexs₁).errors =
      (translate parse decode tcf o₂ dexs₂).errors := by
  subst ho
  subst hd
  exact ⟨rfl, rfl, rfl⟩

/-- Witness for C6 at a concrete input. -/
theorem translate_deterministic_witness :
    (translate parseW id tcfW .PRETTY ["dex1"]).classes =
      (translate parseW id tcfW .PRETTY ["dex1"]).classes ∧
    (translate parseW id tcfW .PRETTY ["dex1"]).ordkeys =
      (translate parseW id tcfW .PRETTY ["dex1"]).ordkeys ∧
    (translate parseW id tcfW .PRETTY ["dex1"]).errors =
      (translate parseW id tcfW .PRETTY ["dex1"]).errors :=
  translate_deterministic parseW id tcfW .PRETTY .PRETTY ["dex1"] ["dex1"] rfl rfl

/-- C5: successes survive failures.  In any run whose translation produced
at least one failure, every successfully translated class is still an entry
of the written jar, and the report carries every per-class diagnostic and
the summary counts of successes and failures. -/
theorem successes_survive_failures (parse : String → List Cls)
    (decode : String → String) (tcf : Options → Cls → Except String String)
    (opts : Options) (dexs : List String)
    (hfail : (translate parse decode tcf opts dexs).errors ≠ []) :
    (∀ p ∈ (translate parse decode tcf opts dexs).classes,
      p ∈ (mainReport parse decode tcf opts dexs).jar) ∧
    (mainReport parse decode tcf opts dexs).diagnostics =
      (translate parse decode tcf opts dexs).errors ∧
    (mainReport parse decode tcf opts dexs).okCount =
      (translate parse decode tcf opts dexs).classes.length ∧
    (mainReport parse decode tcf opts dexs).errCount =
      (translate parse decode tcf opts dexs).errors.length := by
  have hInvT : Inv (translate parse decode tcf opts dexs) := by
    rw [translate_eq_runClasses]
    exact Inv_runClasses decode (tcf opts) initState _ Inv_initState
  obtain ⟨hord, hnodup, _, _⟩ := hInvT
  have hjar : (mainReport parse decode tcf opts dexs).jar =
      (translate parse decode tcf opts dexs).classes := by
    show writeToJar (translate parse decode tcf opts dexs).classes
        (translate parse decode tcf opts dexs).ordkeys =
      (translate parse decode tcf opts dexs).classes
    rw [hord]
    exact writeToJar_eq_classes _ hnodup
  refine ⟨?_, rfl, rfl, rfl⟩
  intro p hp
  rw [hjar]
  exact hp

/-- Witness for C5: the concrete run has one failure, and its successes are
in the jar. -/
theorem successes_survive_failures_witness :
    (translate parseW id tcfW .PRETTY ["dex1"]).errors ≠ [] ∧
    ("A.class", "da") ∈ (mainReport parseW id tcfW .PRETTY ["dex1"]).jar ∧
    (mainReport parseW id tcfW .PRETTY ["dex1"]).diagnostics =
      (translate parseW id tcfW .PRETTY ["dex1"]).errors := by
  have h := successes_survive_failures parseW id tcfW .PRETTY ["dex1"] (by decide)
  exact ⟨by decide, h.1 ("A.class", "da") (by decide), h.2.1⟩

/-- C7: top-level fatal error on unreadable input.  For an apk input, a
failed `zip.OpenReader` aborts the job with that error as a top-level panic,
and a failed read of any matching archive entry likewise aborts with a
panic; in both cases the outcome is `fatal` (no report, no output archive),
not a per-class failure. -/
theorem fatal_on_unreadable (parse : String → List Cls)
    (decode : String → String) (tcf : Options → Cls → Except String String)
    (opts : Options) (inputfile : List Char)
    (zipIn : Except String (List ZipEntry)) (fileIn : Except String String)
    (hapk : isApkName inputfile = true) :
    (∀ e, zipIn = .error e →
      mainModel parse decode tcf opts inputfile zipIn fileIn = .fatal e) ∧
    (∀ files, zipIn = .ok files →
      (∃ f ∈ files, isDexEntry f = true ∧ ∃ e, f.read = .error e) →
      ∃ e, mainModel parse decode tcf opts inputfile zipIn fileIn = .fatal e) := by
  constructor
  · intro e he
    subst he
    simp [mainModel, getDexs, hapk, readDexes]
  · intro files hf hbad
    subst hf
    obtain ⟨e, he⟩ := readDexesLoop_error files [] hbad
    refine ⟨e, ?_⟩
    simp [mainModel, getDexs, hapk, readDexes, he]

/-- Witness for C7: an apk whose archive cannot be opened makes the job
abort with exactly that error. -/
theorem fatal_on_unreadable_witness :
    isApkName "x.apk".toList = true ∧
    mainModel parseW id tcfW .PRETTY "x.apk".toList (.error "cannot open")
        (.error "nofile") = .fatal "cannot open" :=
  ⟨by decide,
    (fatal_on_unreadable parseW id tcfW .PRETTY "x.apk".toList
      (.error "cannot open") (.error "nofile") (by decide)).1 "cannot open" rfl⟩

/-- C9: default output-name edge case.  When the basename of the input
filename contains no dot, `strings.LastIndex` yields `-1` (a negative slice
bound) and the default output-name computation panics instead of producing
a name. -/
theorem default_outname_panics (inputfile : List Char)
    (h : '.' ∉ goBasename inputfile) :
    lastIndexOf (goBasename inputfile) '.' < 0 ∧
    defaultOutName inputfile = none := by
  have hneg : lastIndexOf (goBasename inputfile) '.' = -1 :=
    lastIndexOf_of_not_mem _ _ h
  refine ⟨by rw [hneg]; norm_num, ?_⟩
  norm_num [defaultOutName, hneg, goSliceTo]

/-- Witness for C9: the input "path/to/noext" has a dot-free basename and
the computation panics. -/
theorem default_outname_panics_witness :
    '.' ∉ goBasename "path/to/noext".toList ∧
    defaultOutName "path/to/noext".toList = none :=
  ⟨by decide, (default_outname_panics "path/to/noext".toList (by decide)).2⟩

/-- C10: DEX entry selection from APK input.  For an input whose lowercased
name ends in ".apk", when the archive opens and every matching entry reads
successfully, the DEX inputs are exactly the contents of the entries whose
names start with "classes" and end with ".dex" (case-sensitively), in
archive order; for any other input name, the single whole file is the one
DEX input. -/
theorem dex_entry_selection (inputfile : List Char)
    (zipIn : Except String (List ZipEntry)) (fileIn : Except String String) :
    (isApkName inputfile = true →
      ∀ files, zipIn = .ok files →
      (∀ f ∈ files, isDexEntry f = true → ∃ d, f.read = .ok d) →
      getDexs inputfile zipIn fileIn = .ok (dexEntryData files)) ∧
    (isApkName inputfile = false →
      ∀ d, fileIn = .ok d → getDexs inputfile zipIn fileIn = .ok [d]) := by
  constructor
  · intro hapk files hzip hreads
    subst hzip
    have h := readDexesLoop_all_ok files [] hreads
    simp [getDexs, hapk, readDexes]
    simpa using h
  · intro hapk d hfile
    subst hfile
    simp [getDexs, hapk]

/-- Witness for C10: a mixed archive under an uppercase ".APK" name selects
exactly the two case-sensitively matching entries in order, and a non-apk
input is read whole. -/
theorem dex_entry_selection_witness :
    isApkName "app.APK".toList = true ∧
    getDexs "app.APK".toList (.ok filesW) (.error "nofile") = .ok ["D1", "D2"] ∧
    getDexs "app.dex".toList (.ok filesW) (.ok "RAW") = .ok ["RAW"] := by
  refine ⟨by decide, ?_, ?_⟩
  · have hreads : ∀ f ∈ filesW, isDexEntry f = true → ∃ d, f.read = .ok d := by
      intro f hf _
      rcases (by simpa [filesW] using hf :
        f = (⟨"classes.dex".toList, .ok "D1"⟩ : ZipEntry) ∨
        f = (⟨"AndroidManifest.xml".toList, .ok "X"⟩ : ZipEntry) ∨
        f = (⟨"classes2.dex".toList, .ok "D2"⟩ : ZipEntry) ∨
        f = (⟨"classes3.DEX".toList, .ok "D3"⟩ : ZipEntry)) with
        rfl | rfl | rfl | rfl
      · exact ⟨"D1", rfl⟩
      · exact ⟨"X", rfl⟩
      · exact ⟨"D2", rfl⟩
      · exact ⟨"D3", rfl⟩
    have h := (dex_entry_selection "app.APK".toList (.ok filesW)
      (.error "nofile")).1 (by decide) filesW rfl hreads
    have hd : dexEntryData filesW = ["D1", "D2"] := by decide
    rw [h, hd]
  · exact (dex_entry_selection "app.dex".toList (.ok filesW)
      (.ok "RAW")).2 (by decide) "RAW" rfl

/-- C8: collector invariant.  At every intermediate point of `translate`
(after any prefix of the scanned classes) the state satisfies `Inv`: the
ordered name list is exactly the success map's key sequence in insertion
order with no repeats, error-map keys are unique, and the two key sets are
disjoint; moreover the final state only extends the intermediate one by
appending — no key is ever removed or re-bound in either map. -/
theorem collector_invariant (parse : String → List Cls)
    (decode : String → String) (tcf : Options → Cls → Except String String)
    (opts : Options) (dexs : List String) (l₁ l₂ : List Cls)
    (hsplit : allClasses parse dexs = l₁ ++ l₂) :
    Inv (runClasses decode (tcf opts) initState l₁) ∧
    ∃ a b e,
      (translate parse decode tcf opts dexs).classes =
        (runClasses decode (tcf opts) initState l₁).classes ++ a ∧
      (translate parse decode tcf opts dexs).ordkeys =
        (runClasses decode (tcf opts) initState l₁).ordkeys ++ b ∧
      (translate parse decode tcf opts dexs).errors =
        (runClasses decode (tcf opts) initState l₁).errors ++ e := by
  constructor
  · exact Inv_runClasses decode (tcf opts) initState l₁ Inv_initState
  · rw [translate_eq_runClasses, hsplit, runClasses_append]
    exact runClasses_extends decode (tcf opts) _ l₂

/-- Witness for C8 at a concrete run split after its first class. -/
theorem collector_invariant_witness :
    allClasses parseW ["dex1"] = [⟨"A", "da"⟩] ++ [⟨"B", "db"⟩, ⟨"C", "dc"⟩] ∧
    (Inv (runClasses id (tcfW .PRETTY) initState [⟨"A", "da"⟩]) ∧
      ∃ a b e,
        (translate parseW id tcfW .PRETTY ["dex1"]).classes =
          (runClasses id (tcfW .PRETTY) initState [⟨"A", "da"⟩]).classes ++ a ∧
        (translate parseW id tcfW .PRETTY ["dex1"]).ordkeys =
          (runClasses id (tcfW .PRETTY) initState [⟨"A", "da"⟩]).ordkeys ++ b ∧
        (translate parseW id tcfW .PRETTY ["dex1"]).errors =
          (runClasses id (tcfW .PRETTY) initState [⟨"A", "da"⟩]).errors ++ e) :=
  ⟨by decide,
    collector_invariant parseW id tcfW .PRETTY ["dex1"]
      [⟨"A", "da"⟩] [⟨"B", "db"⟩, ⟨"C", "dc"⟩] (by decide)⟩

end Enjarify
